import Mathlib

/-
Verification of the pairwise code-clone difference engine of
`bears/c_languages/codeclone_detection/ClangFunctionDifferenceBear.py`.

The file shallowly embeds the data model and operations of the bear:
count matrices, the configuration conversion `counting_condition_dict`,
the pairwise driver of `ClangFunctionDifferenceBear.run`, and the
difference computation `get_difference` / `compare_functions`.
`compare_functions` and `condition_dict` live in sibling modules
(`CloneDetectionRoutines`, `ClangCountingConditions`) whose sources are
not part of the analysed tree; those parts are modelled from the spec
and are marked `Modelled from the spec:` in their doc comments.

Function identifiers are natural numbers, weights and counts are
rationals.
-/

namespace CloneBear

/-- Python's `itertools.combinations(l, 2)` as used in `run`: every pair
`(l[i], l[j])` with `i < j`, in lexicographic order of indices. -/
def pairsOf {α : Type} : List α → List (α × α)
  | [] => []
  | x :: xs => xs.map (fun y => (x, y)) ++ pairsOf xs

/-- A count matrix of one function: `k` counting conditions (rows) and
`nvars` variables (columns); the cell holds the weighted count. -/
structure CountMatrix (k : ℕ) where
  nvars : ℕ
  col : Fin nvars → Fin k → ℚ

/-- Squared-Euclidean distance between two columns in condition space. -/
def colDist {k : ℕ} (u v : Fin k → ℚ) : ℚ := ∑ c, (u c - v c) ^ 2

/-- Squared magnitude of a column. -/
def colNormSq {k : ℕ} (u : Fin k → ℚ) : ℚ := ∑ c, u c ^ 2

/-- Column `i` of `M` when `i < M.nvars`, and the all-zero padding column
otherwise. -/
def padCol {k : ℕ} (M : CountMatrix k) (m : ℕ) (i : Fin m) : Fin k → ℚ :=
  fun c => if h : (i : ℕ) < M.nvars then M.col ⟨i, h⟩ c else 0

/-- Modelled from the spec: the Matching Engine of `CloneDetectionRoutines`
(not in the analysed tree) solves the assignment problem exactly on the
cost matrix padded to `m` columns with zero columns; only the total
minimum cost is used downstream.  Here the exact minimum is taken
directly over all permutations of `Fin m`. -/
def matchingCostAt {k : ℕ} (m : ℕ) (A B : CountMatrix k) : ℚ :=
  Finset.univ.inf' Finset.univ_nonempty
    (fun σ : Equiv.Perm (Fin m) =>
      ∑ i, colDist (padCol A m i) (padCol B m (σ i)))

/-- Total minimum matching cost of two count matrices, padding to
`max` of the column counts. -/
def matchingCost {k : ℕ} (A B : CountMatrix k) : ℚ :=
  matchingCostAt (max A.nvars B.nvars) A B

/-- Sum of squared magnitudes of all columns of both matrices, the
normalization mass of the normalized-whole mode. -/
def totalNormSq {k : ℕ} (A B : CountMatrix k) : ℚ :=
  (∑ i, colNormSq (A.col i)) + (∑ j, colNormSq (B.col j))

/-- Modelled from the spec: the Difference Calculator's two modes.
Average mode divides the matching cost by `max(n1, n2)` (0 when both are
empty); normalized-whole mode divides by the total squared magnitude of
all columns (0 when that mass is 0). -/
def rawDifference {k : ℕ} (average_calculation : Bool) (A B : CountMatrix k) : ℚ :=
  if average_calculation then
    if max A.nvars B.nvars = 0 then 0
    else matchingCost A B / (max A.nvars B.nvars : ℚ)
  else
    if totalNormSq A B = 0 then 0
    else matchingCost A B / totalNormSq A B

/-- The normalized-whole mode stated from the spec's words: matching
total cost divided by the sum of squared magnitudes of all columns in
both matrices (relative-error style normalization), 0 for the degenerate
case. -/
def normalizedWholeDifference {k : ℕ} (A B : CountMatrix k) : ℚ :=
  if totalNormSq A B = 0 then 0 else matchingCost A B / totalNormSq A B

/-- Modelled from the spec: `compare_functions` of `CloneDetectionRoutines`
(not in the analysed tree).  The raw mode difference is postprocessed by
the polynomial or the exponential dampening transform; the exact curves
are tunable constants, so they are taken as parameters `polyF`/`expF`
receiving the larger column count and the raw difference. -/
def compare_functions {k : ℕ} (polyF expF : ℕ → ℚ → ℚ) (cm1 cm2 : CountMatrix k)
    (average_calculation poly_postprocessing exp_postprocessing : Bool) : ℚ :=
  let d := rawDifference average_calculation cm1 cm2
  if poly_postprocessing then polyF (max cm1.nvars cm2.nvars) d
  else if exp_postprocessing then expF (max cm1.nvars cm2.nvars) d
  else d

/-- Dictionary lookup `count_matrices[key]`, embedding the dict as an
association list in insertion order. -/
def cmLookup {k : ℕ} (key : ℕ) : List (ℕ × CountMatrix k) → Option (CountMatrix k)
  | [] => none
  | (key2, cm) :: rest => if key = key2 then some cm else cmLookup key rest

/-- The function `get_difference` of `ClangFunctionDifferenceBear.py`: unpacks the
function pair, looks both ids up in the count-matrices dictionary and
returns `(function_1, function_2, compare_functions ...)`; `none` embeds
the `KeyError` of a failed dictionary lookup. -/
def get_difference {k : ℕ} (polyF expF : ℕ → ℚ → ℚ) (function_pair : ℕ × ℕ)
    (count_matrices : List (ℕ × CountMatrix k))
    (average_calculation poly_postprocessing exp_postprocessing : Bool) :
    Option (ℕ × ℕ × ℚ) :=
  match cmLookup function_pair.1 count_matrices,
        cmLookup function_pair.2 count_matrices with
  | some cm1, some cm2 =>
      some (function_pair.1, function_pair.2,
        compare_functions polyF expF cm1 cm2
          average_calculation poly_postprocessing exp_postprocessing)
  | _, _ => none

/-- The keys of the count-matrices dictionary, in insertion order
(`combinations(count_matrices, 2)` iterates the dict's keys). -/
def keysOf {k : ℕ} (count_matrices : List (ℕ × CountMatrix k)) : List ℕ :=
  count_matrices.map Prod.fst

/-- The differences list built by the loop of `run`: `get_difference`
mapped over all 2-combinations of the dictionary keys. -/
def driverDifferences {k : ℕ} (polyF expF : ℕ → ℚ → ℚ)
    (count_matrices : List (ℕ × CountMatrix k))
    (average_calculation poly_postprocessing exp_postprocessing : Bool) :
    List (Option (ℕ × ℕ × ℚ)) :=
  (pairsOf (keysOf count_matrices)).map
    (fun pr => get_difference polyF expF pr count_matrices
      average_calculation poly_postprocessing exp_postprocessing)

/-- The (id, id) pair carried by each emitted difference record. -/
def emittedPairs (l : List (Option (ℕ × ℕ × ℚ))) : List (ℕ × ℕ) :=
  l.filterMap (fun o => o.map (fun t => (t.1, t.2.1)))

/-- The enumerated loop body of `run`: every 50th index emits a progress
debug message (`dbg i`) and every element is appended to the differences
list. -/
def debugLoop {β : Type} (dbg : ℕ → List String) :
    List (ℕ × β) → List β × List String
  | [] => ([], [])
  | (i, e) :: rest =>
      let r := debugLoop dbg rest
      (e :: r.1, (if i % 50 = 0 then dbg i else []) ++ r.2)

/-- The difference loop of `run` with its progress reporting: the
instrumented run returns the collected differences together with the
debug log. -/
def runWithDebug {k : ℕ} (dbg : ℕ → List String) (polyF expF : ℕ → ℚ → ℚ)
    (count_matrices : List (ℕ × CountMatrix k))
    (average_calculation poly_postprocessing exp_postprocessing : Bool) :
    List (Option (ℕ × ℕ × ℚ)) × List String :=
  debugLoop dbg
    (driverDifferences polyF expF count_matrices
      average_calculation poly_postprocessing exp_postprocessing).enum

/-- One value yielded by `ClangFunctionDifferenceBear.run`: a
`HiddenResult` wrapping either the differences list or the
count-matrices dictionary. -/
inductive BearResult (k : ℕ) where
  | hiddenDifferences (differences : List (Option (ℕ × ℕ × ℚ)))
  | hiddenCountMatrices (count_matrices : List (ℕ × CountMatrix k))

/-- The body of `ClangFunctionDifferenceBear.run` after matrix construction (the
matrices come from the external analyzer `get_count_matrices`): the
collected yields, in order. -/
def run {k : ℕ} (polyF expF : ℕ → ℚ → ℚ)
    (count_matrices : List (ℕ × CountMatrix k))
    (average_calculation poly_postprocessing exp_postprocessing : Bool) :
    List (BearResult k) :=
  [BearResult.hiddenDifferences
      (driverDifferences polyF expF count_matrices
        average_calculation poly_postprocessing exp_postprocessing),
   BearResult.hiddenCountMatrices count_matrices]

/-- Default of `average_calculation` in `run`'s signature (line 90). -/
def average_calculation_default : Bool := false

/-- Default of `poly_postprocessing` in `run`'s signature (line 91). -/
def poly_postprocessing_default : Bool := true

/-- Default of `exp_postprocessing` in `run`'s signature (line 92). -/
def exp_postprocessing_default : Bool := false

/-- Modelled from the spec: the error taxonomy's ConfigurationError —
unknown counting-condition name, or both postprocessing flags set. -/
inductive ConfigurationError where
  | bothPostprocessing
  | unknownCondition (name : String)
deriving DecidableEq

/-- Modelled from the spec: the run with the configuration validation of
the error-handling design — a ConfigurationError is fatal, surfaced
immediately and produces no partial results for any of the pairs. -/
def run_checked {k : ℕ} (polyF expF : ℕ → ℚ → ℚ)
    (count_matrices : List (ℕ × CountMatrix k))
    (average_calculation poly_postprocessing exp_postprocessing : Bool) :
    Except ConfigurationError (List (BearResult k)) :=
  if poly_postprocessing && exp_postprocessing then
    Except.error ConfigurationError.bothPostprocessing
  else
    Except.ok (run polyF expF count_matrices
      average_calculation poly_postprocessing exp_postprocessing)

/-- The fixed known-name set of counting conditions (the keys of
`condition_dict`, as listed by the source's default configuration). -/
def condition_names : List String :=
  ["used", "returned", "is_condition", "in_condition",
   "in_second_level_condition", "in_third_level_condition",
   "is_assignee", "is_assigner", "loop_content",
   "second_level_loop_content", "third_level_loop_content",
   "is_param", "is_called", "is_call_param", "in_sum",
   "in_product", "in_binary_operation", "member_accessed"]

/-- Lowercasing as Python's `str.lower`, written over the character list
so that it evaluates. -/
def lowerStr (s : String) : String := String.mk (s.data.map Char.toLower)

/-- Modelled from the spec: `counting_condition_dict` converts a setting
(a name → optional weight sequence) into the condition dictionary.  Keys
are lowercased and looked up in `condition_dict` (not in the analysed
tree) — an unknown name is a configuration error — and unset weights
default to 1. -/
def counting_condition_dict :
    List (String × Option ℚ) → Except ConfigurationError (List (String × ℚ))
  | [] => Except.ok []
  | (name, w) :: rest =>
      if lowerStr name ∈ condition_names then
        match counting_condition_dict rest with
        | Except.ok r => Except.ok ((lowerStr name, w.getD 1) :: r)
        | Except.error e => Except.error e
      else Except.error (ConfigurationError.unknownCondition name)

/-- A count matrix with no variables, used as concrete sample data. -/
def emptyCM : CountMatrix 1 := ⟨0, fun _ _ => 0⟩

/-- Three sample functions with empty count matrices. -/
def sampleCMs : List (ℕ × CountMatrix 1) :=
  [(0, emptyCM), (1, emptyCM), (2, emptyCM)]

/-- A trivial postprocessing curve (the identity), a legal instance of
the tunable dampening transforms. -/
def idPost : ℕ → ℚ → ℚ := fun _ d => d

lemma length_pairsOf {α : Type} (l : List α) :
    2 * (pairsOf l).length = l.length * (l.length - 1) := by
  induction l with
  | nil => rfl
  | cons x xs ih =>
      simp only [pairsOf, List.length_append, List.length_map, List.length_cons]
      cases hxs : xs.length with
      | zero =>
          have hnil : xs = [] := List.length_eq_zero.mp hxs
          subst hnil
          simp [pairsOf]
      | succ n =>
          rw [hxs] at ih
          simp only [Nat.succ_sub_one] at ih ⊢
          nlinarith [ih]

lemma mem_pairsOf {α : Type} {l : List α} {p : α × α} (hp : p ∈ pairsOf l) :
    p.1 ∈ l ∧ p.2 ∈ l := by
  induction l with
  | nil => cases hp
  | cons x xs ih =>
      simp only [pairsOf, List.mem_append, List.mem_map] at hp
      rcases hp with ⟨y, hy, hyp⟩ | hp
      · subst hyp; exact ⟨List.mem_cons_self .., List.mem_cons_of_mem _ hy⟩
      · exact ⟨List.mem_cons_of_mem _ (ih hp).1, List.mem_cons_of_mem _ (ih hp).2⟩

lemma not_self_mem_pairsOf {α : Type} {l : List α} (hl : l.Nodup) (a : α) :
    (a, a) ∉ pairsOf l := by
  induction l with
  | nil => simp [pairsOf]
  | cons x xs ih =>
      simp only [pairsOf, List.mem_append, List.mem_map, not_or]
      rcases List.nodup_cons.mp hl with ⟨hx, hxs⟩
      refine ⟨?_, ih hxs⟩
      rintro ⟨y, hy, hxy⟩
      obtain ⟨h1, h2⟩ := Prod.mk.injEq .. ▸ hxy
      exact hx (h1 ▸ h2 ▸ hy)

lemma count_map_pair {α : Type} [DecidableEq α] (x a b : α) (xs : List α) :
    (xs.map (fun y => (x, y))).count (a, b) = if a = x then xs.count b else 0 := by
  induction xs with
  | nil => simp
  | cons z zs ih =>
      by_cases hab : (a, b) = (x, z)
      · obtain ⟨h1, h2⟩ := Prod.mk.injEq .. ▸ hab
        subst h1; subst h2
        simp [List.count_cons, ih]
      · rw [List.map_cons, List.count_cons_of_ne hab, ih]
        by_cases hax : a = x
        · subst hax
          have hbz : b ≠ z := fun h => hab (by rw [h])
          simp [List.count_cons_of_ne, hbz]
        · simp [hax]

lemma count_pairsOf_of_ne {α : Type} [DecidableEq α] {l : List α} (hl : l.Nodup)
    {a b : α} (hab : a ≠ b) (ha : a ∈ l) (hb : b ∈ l) :
    (pairsOf l).count (a, b) + (pairsOf l).count (b, a) = 1 := by
  induction l with
  | nil => cases ha
  | cons x xs ih =>
      rcases List.nodup_cons.mp hl with ⟨hx, hxs⟩
      have hfst : ∀ c d : α, c ∉ xs → (pairsOf xs).count (c, d) = 0 := by
        intro c d hc
        exact List.count_eq_zero.mpr (fun hmem => hc (mem_pairsOf hmem).1)
      have hsnd : ∀ c d : α, d ∉ xs → (pairsOf xs).count (c, d) = 0 := by
        intro c d hd
        exact List.count_eq_zero.mpr (fun hmem => hd (mem_pairsOf hmem).2)
      simp only [pairsOf, List.count_append, count_map_pair]
      rcases List.mem_cons.mp ha with hax | hax
      · subst hax
        have hbxs : b ∈ xs := (List.mem_cons.mp hb).resolve_left (fun h => hab h.symm)
        have hba : ¬ b = a := fun h => hab h.symm
        rw [if_pos rfl, if_neg hba, hfst a b hx, hsnd b a hx,
          List.count_eq_one_of_mem hxs hbxs]
      · rcases List.mem_cons.mp hb with hbx | hbx
        · subst hbx
          have hax' : ¬ a = b := hab
          rw [if_neg hax', if_pos rfl, hsnd a b hx, hfst b a hx,
            List.count_eq_one_of_mem hxs hax]
        · have h1 : ¬ a = x := fun h => hx (h ▸ hax)
          have h2 : ¬ b = x := fun h => hx (h ▸ hbx)
          rw [if_neg h1, if_neg h2]
          simpa using ih hxs hax hbx

lemma cmLookup_isSome_of_mem {k : ℕ} {key : ℕ} {cms : List (ℕ × CountMatrix k)}
    (h : key ∈ keysOf cms) : ∃ cm, cmLookup key cms = some cm := by
  induction cms with
  | nil => cases h
  | cons hd tl ih =>
      obtain ⟨k2, cm⟩ := hd
      by_cases hk : key = k2
      · exact ⟨cm, by simp [cmLookup, hk]⟩
      · have hmem : key ∈ keysOf tl := by
          simpa [keysOf, hk] using h
        obtain ⟨cm', h'⟩ := ih hmem
        exact ⟨cm', by simp [cmLookup, hk, h']⟩

lemma emittedPairs_map_get_difference {k : ℕ} (polyF expF : ℕ → ℚ → ℚ)
    (cms : List (ℕ × CountMatrix k)) (a p e : Bool) :
    ∀ L : List (ℕ × ℕ), (∀ pr ∈ L, pr.1 ∈ keysOf cms ∧ pr.2 ∈ keysOf cms) →
      emittedPairs (L.map (fun pr => get_difference polyF expF pr cms a p e)) = L := by
  intro L
  induction L with
  | nil => intro _; rfl
  | cons pr L2 ih =>
      intro h
      obtain ⟨h1m, h2m⟩ := h pr (List.mem_cons_self ..)
      obtain ⟨cm1, h1⟩ := cmLookup_isSome_of_mem h1m
      obtain ⟨cm2, h2⟩ := cmLookup_isSome_of_mem h2m
      have hg : get_difference polyF expF pr cms a p e =
          some (pr.1, pr.2, compare_functions polyF expF cm1 cm2 a p e) := by
        simp [get_difference, h1, h2]
      have hrest := ih (fun q hq => h q (List.mem_cons_of_mem _ hq))
      simp only [List.map_cons, emittedPairs, List.filterMap_cons, hg, Option.map_some'] at hrest ⊢
      simpa using hrest

lemma emittedPairs_driver {k : ℕ} (polyF expF : ℕ → ℚ → ℚ)
    (cms : List (ℕ × CountMatrix k)) (a p e : Bool) :
    emittedPairs (driverDifferences polyF expF cms a p e) = pairsOf (keysOf cms) := by
  apply emittedPairs_map_get_difference
  intro pr hpr
  exact mem_pairsOf hpr

lemma colDist_comm {k : ℕ} (u v : Fin k → ℚ) : colDist u v = colDist v u := by
  unfold colDist
  exact Finset.sum_congr rfl (fun c _ => by ring)

lemma matchingCostAt_le_swap {k m : ℕ} (A B : CountMatrix k) :
    matchingCostAt m A B ≤ matchingCostAt m B A := by
  unfold matchingCostAt
  apply Finset.le_inf'
  intro σ _
  have h : (∑ i, colDist (padCol A m i) (padCol B m (σ⁻¹ i))) =
      ∑ i, colDist (padCol B m i) (padCol A m (σ i)) := by
    rw [← Equiv.sum_comp σ (fun i => colDist (padCol A m i) (padCol B m (σ⁻¹ i)))]
    refine Finset.sum_congr rfl (fun i _ => ?_)
    rw [Equiv.Perm.inv_apply_self]
    exact colDist_comm ..
  exact le_trans (Finset.inf'_le _ (Finset.mem_univ σ⁻¹)) (le_of_eq h)

lemma matchingCost_comm {k : ℕ} (A B : CountMatrix k) :
    matchingCost A B = matchingCost B A := by
  unfold matchingCost
  rw [Nat.max_comm B.nvars A.nvars]
  exact le_antisymm (matchingCostAt_le_swap A B) (matchingCostAt_le_swap B A)

lemma totalNormSq_comm {k : ℕ} (A B : CountMatrix k) :
    totalNormSq A B = totalNormSq B A := by
  unfold totalNormSq
  exact add_comm ..

lemma rawDifference_comm {k : ℕ} (a : Bool) (A B : CountMatrix k) :
    rawDifference a A B = rawDifference a B A := by
  unfold rawDifference
  rw [matchingCost_comm A B, totalNormSq_comm A B, Nat.max_comm A.nvars B.nvars,
    max_comm (A.nvars : ℚ) (B.nvars : ℚ)]

lemma debugLoop_fst {β : Type} (dbg : ℕ → List String) (l : List (ℕ × β)) :
    (debugLoop dbg l).1 = l.map Prod.snd := by
  induction l with
  | nil => rfl
  | cons x xs ih =>
      obtain ⟨i, e⟩ := x
      simp [debugLoop, ih]

/-- Claim C1: for every collection of N count matrices (distinct
function ids), the driver produces exactly N·(N−1)/2 difference records,
one per distinct unordered pair of ids, each pair exactly once, never as
both (A,B) and (B,A), and no pair of an id with itself. -/
theorem claim_C1_pair_completeness {k : ℕ} (polyF expF : ℕ → ℚ → ℚ)
    (count_matrices : List (ℕ × CountMatrix k)) (a p e : Bool)
    (hnd : (keysOf count_matrices).Nodup) :
    (driverDifferences polyF expF count_matrices a p e).length =
        count_matrices.length * (count_matrices.length - 1) / 2 ∧
    emittedPairs (driverDifferences polyF expF count_matrices a p e) =
        pairsOf (keysOf count_matrices) ∧
    (∀ x : ℕ, (x, x) ∉ emittedPairs (driverDifferences polyF expF count_matrices a p e)) ∧
    (∀ x y : ℕ, x ∈ keysOf count_matrices → y ∈ keysOf count_matrices → x ≠ y →
      (emittedPairs (driverDifferences polyF expF count_matrices a p e)).count (x, y) +
        (emittedPairs (driverDifferences polyF expF count_matrices a p e)).count (y, x) = 1) := by
  have hemit := emittedPairs_driver polyF expF count_matrices a p e
  have hlen2 := length_pairsOf (keysOf count_matrices)
  have hkeys : (keysOf count_matrices).length = count_matrices.length :=
    List.length_map ..
  refine ⟨?_, hemit, ?_, ?_⟩
  · rw [hkeys] at hlen2
    simp only [driverDifferences, List.length_map]
    omega
  · intro x
    rw [hemit]
    exact not_self_mem_pairsOf hnd x
  · intro x y hx hy hxy
    rw [hemit]
    exact count_pairsOf_of_ne hnd hxy hx hy

/-- Witness for C1 at three concrete matrices. -/
theorem claim_C1_pair_completeness_witness :
    (keysOf sampleCMs).Nodup ∧
    ((driverDifferences idPost idPost sampleCMs false true false).length =
        sampleCMs.length * (sampleCMs.length - 1) / 2 ∧
      emittedPairs (driverDifferences idPost idPost sampleCMs false true false) =
        pairsOf (keysOf sampleCMs) ∧
      (∀ x : ℕ, (x, x) ∉ emittedPairs (driverDifferences idPost idPost sampleCMs false true false)) ∧
      (∀ x y : ℕ, x ∈ keysOf sampleCMs → y ∈ keysOf sampleCMs → x ≠ y →
        (emittedPairs (driverDifferences idPost idPost sampleCMs false true false)).count (x, y) +
          (emittedPairs (driverDifferences idPost idPost sampleCMs false true false)).count (y, x) = 1)) :=
  ⟨by decide, claim_C1_pair_completeness idPost idPost sampleCMs false true false (by decide)⟩

/-- Claim C2: with both poly and exp postprocessing set, the checked run
fails with the ConfigurationError, surfacing no results at all. -/
theorem claim_C2_both_postprocessing_error {k : ℕ} (polyF expF : ℕ → ℚ → ℚ)
    (count_matrices : List (ℕ × CountMatrix k)) (a : Bool) :
    run_checked polyF expF count_matrices a true true =
      Except.error ConfigurationError.bothPostprocessing ∧
    ∀ results : List (BearResult k),
      run_checked polyF expF count_matrices a true true ≠ Except.ok results := by
  refine ⟨rfl, fun results h => ?_⟩
  simp [run_checked] at h

/-- Claim C3: a configuration containing a counting-condition name
outside the known-name set is rejected with a configuration error by the
conversion, never silently ignored. -/
theorem claim_C3_unknown_condition_rejected (cfg : List (String × Option ℚ))
    (name : String) (w : Option ℚ) (hmem : (name, w) ∈ cfg)
    (hunk : lowerStr name ∉ condition_names) :
    ∃ err, counting_condition_dict cfg = Except.error err := by
  induction cfg with
  | nil => cases hmem
  | cons hd tl ih =>
      obtain ⟨n2, w2⟩ := hd
      rcases List.mem_cons.mp hmem with heq | hmem2
      · injection heq with h1 h2
        subst h1
        simp only [counting_condition_dict]
        rw [if_neg hunk]
        exact ⟨_, rfl⟩
      · simp only [counting_condition_dict]
        by_cases hk : lowerStr n2 ∈ condition_names
        · rw [if_pos hk]
          obtain ⟨err, herr⟩ := ih hmem2
          rw [herr]
          exact ⟨err, rfl⟩
        · rw [if_neg hk]
          exact ⟨_, rfl⟩

/-- Witness for C3 at the spec's scenario name. -/
theorem claim_C3_unknown_condition_rejected_witness :
    (("typo_condition", (none : Option ℚ)) ∈
        [(("typo_condition" : String), (none : Option ℚ))]) ∧
    lowerStr "typo_condition" ∉ condition_names ∧
    ∃ err, counting_condition_dict [("typo_condition", (none : Option ℚ))] =
      Except.error err :=
  ⟨List.mem_singleton.mpr rfl, by decide,
    claim_C3_unknown_condition_rejected _ _ _ (List.mem_singleton.mpr rfl) (by decide)⟩

/-- Counterexample to claim C4 as stated: converting a configuration
that names only `used` yields a dictionary without the known condition
`returned` — an absent known name is not assigned weight 1.0, it is
absent from the mapping. -/
theorem claim_C4_counterexample :
    counting_condition_dict [("used", some (2 : ℚ))] =
      Except.ok [("used", (2 : ℚ))] ∧
    "returned" ∈ condition_names ∧
    "returned" ∉ ([(("used" : String), (2 : ℚ))]).map Prod.fst := by
  refine ⟨rfl, by decide, by decide⟩

/-- Claim C4 (amended): a condition listed without an explicit weight is
assigned weight 1; a name absent from the configuration does not occur
in the resulting mapping at all. -/
theorem claim_C4_unset_weight_defaults (cfg : List (String × Option ℚ))
    (r : List (String × ℚ)) (h : counting_condition_dict cfg = Except.ok r) :
    (∀ name : String, (name, (none : Option ℚ)) ∈ cfg → (lowerStr name, (1 : ℚ)) ∈ r) ∧
    (∀ x : String, x ∈ r.map Prod.fst →
      ∃ nm w, (nm, w) ∈ cfg ∧ lowerStr nm = x) := by
  induction cfg generalizing r with
  | nil =>
      simp only [counting_condition_dict] at h
      cases h
      exact ⟨fun name hn => absurd hn (List.not_mem_nil _),
        fun x hx => absurd hx (by simp)⟩
  | cons hd tl ih =>
      obtain ⟨n2, w2⟩ := hd
      simp only [counting_condition_dict] at h
      by_cases hk : lowerStr n2 ∈ condition_names
      · rw [if_pos hk] at h
        cases htl : counting_condition_dict tl with
        | error e => rw [htl] at h; cases h
        | ok r2 =>
            rw [htl] at h
            cases h
            obtain ⟨ih1, ih2⟩ := ih r2 htl
            constructor
            · intro name hn
              rcases List.mem_cons.mp hn with heq | hn2
              · injection heq with h1 h2
                subst h1
                rw [← h2]
                exact List.mem_cons_self ..
              · exact List.mem_cons_of_mem _ (ih1 name hn2)
            · intro x hx
              rw [List.map_cons] at hx
              rcases List.mem_cons.mp hx with heq | hx2
              · subst heq
                exact ⟨n2, w2, List.mem_cons_self .., rfl⟩
              · obtain ⟨nm, w, hmem, hlow⟩ := ih2 x hx2
                exact ⟨nm, w, List.mem_cons_of_mem _ hmem, hlow⟩
      · rw [if_neg hk] at h
        cases h

/-- Witness for the amended C4 at a concrete configuration. -/
theorem claim_C4_unset_weight_defaults_witness :
    counting_condition_dict [("used", (none : Option ℚ))] =
      Except.ok [("used", (1 : ℚ))] ∧
    ((∀ name : String, (name, (none : Option ℚ)) ∈
          [(("used" : String), (none : Option ℚ))] →
        (lowerStr name, (1 : ℚ)) ∈ [(("used" : String), (1 : ℚ))]) ∧
      (∀ x : String, x ∈ ([(("used" : String), (1 : ℚ))]).map Prod.fst →
        ∃ nm w, (nm, w) ∈ [(("used" : String), (none : Option ℚ))] ∧
          lowerStr nm = x)) :=
  ⟨rfl, claim_C4_unset_weight_defaults _ _ rfl⟩

/-- Claim C5: the computed difference is symmetric in the two count
matrices, for every configuration and postprocessing curves. -/
theorem claim_C5_difference_symmetric {k : ℕ} (polyF expF : ℕ → ℚ → ℚ)
    (A B : CountMatrix k) (a p e : Bool) :
    compare_functions polyF expF A B a p e =
      compare_functions polyF expF B A a p e := by
  unfold compare_functions
  rw [rawDifference_comm, Nat.max_comm A.nvars B.nvars]

/-- Claim C6: `get_difference` returns the triple of the two given ids,
in the given order, with the difference of their two looked-up count
matrices. -/
theorem claim_C6_get_difference_shape {k : ℕ} (polyF expF : ℕ → ℚ → ℚ)
    (f1 f2 : ℕ) (count_matrices : List (ℕ × CountMatrix k))
    (cm1 cm2 : CountMatrix k) (a p e : Bool)
    (h1 : cmLookup f1 count_matrices = some cm1)
    (h2 : cmLookup f2 count_matrices = some cm2) :
    get_difference polyF expF (f1, f2) count_matrices a p e =
      some (f1, f2, compare_functions polyF expF cm1 cm2 a p e) := by
  simp [get_difference, h1, h2]

/-- Witness for C6 on the sample dictionary. -/
theorem claim_C6_get_difference_shape_witness :
    cmLookup 1 sampleCMs = some emptyCM ∧
    cmLookup 2 sampleCMs = some emptyCM ∧
    get_difference idPost idPost (1, 2) sampleCMs false true false =
      some (1, 2, compare_functions idPost idPost emptyCM emptyCM false true false) :=
  ⟨rfl, rfl, claim_C6_get_difference_shape idPost idPost 1 2 sampleCMs
    emptyCM emptyCM false true false rfl rfl⟩

/-- Claim C7: `average_calculation` defaults to false, and with that
default the raw difference is the normalized-whole normalization. -/
theorem claim_C7_default_normalized_whole {k : ℕ} (polyF expF : ℕ → ℚ → ℚ)
    (A B : CountMatrix k) :
    average_calculation_default = false ∧
    rawDifference average_calculation_default A B = normalizedWholeDifference A B ∧
    (∀ p e : Bool, compare_functions polyF expF A B average_calculation_default p e =
      (if p then polyF (max A.nvars B.nvars) (normalizedWholeDifference A B)
       else if e then expF (max A.nvars B.nvars) (normalizedWholeDifference A B)
       else normalizedWholeDifference A B)) := by
  refine ⟨rfl, rfl, ?_⟩
  intro p e
  cases p <;> cases e <;> rfl

/-- Claim C9: `poly_postprocessing` defaults to true and
`exp_postprocessing` to false, so with the defaults the polynomial curve
is applied to every pair's raw difference. -/
theorem claim_C9_poly_default_applied {k : ℕ} (polyF expF : ℕ → ℚ → ℚ)
    (A B : CountMatrix k) (a : Bool) :
    poly_postprocessing_default = true ∧
    exp_postprocessing_default = false ∧
    compare_functions polyF expF A B a
        poly_postprocessing_default exp_postprocessing_default =
      polyF (max A.nvars B.nvars) (rawDifference a A B) :=
  ⟨rfl, rfl, rfl⟩

/-- Claim C8: the periodic progress reporting is purely observational —
the differences list is the same for any two debug callbacks, and equals
the un-instrumented driver output. -/
theorem claim_C8_debug_observational {k : ℕ} (dbg1 dbg2 : ℕ → List String)
    (polyF expF : ℕ → ℚ → ℚ) (count_matrices : List (ℕ × CountMatrix k))
    (a p e : Bool) :
    (runWithDebug dbg1 polyF expF count_matrices a p e).1 =
      (runWithDebug dbg2 polyF expF count_matrices a p e).1 ∧
    (runWithDebug dbg1 polyF expF count_matrices a p e).1 =
      driverDifferences polyF expF count_matrices a p e := by
  have h : ∀ dbg : ℕ → List String,
      (runWithDebug dbg polyF expF count_matrices a p e).1 =
        driverDifferences polyF expF count_matrices a p e := by
    intro dbg
    unfold runWithDebug
    rw [debugLoop_fst]
    exact List.enumFrom_map_snd 0 _
  exact ⟨(h dbg1).trans (h dbg2).symm, h dbg1⟩

/-- Claim C10: `run` yields exactly two results, first the hidden result
wrapping the differences list, then the hidden result wrapping the
count-matrices dictionary. -/
theorem claim_C10_run_yields_two_hidden_results {k : ℕ} (polyF expF : ℕ → ℚ → ℚ)
    (count_matrices : List (ℕ × CountMatrix k)) (a p e : Bool) :
    run polyF expF count_matrices a p e =
      [BearResult.hiddenDifferences
          (driverDifferences polyF expF count_matrices a p e),
       BearResult.hiddenCountMatrices count_matrices] ∧
    (run polyF expF count_matrices a p e).length = 2 :=
  ⟨rfl, rfl⟩

end CloneBear
